import Mathlib

/-!
Verification of the invoice metadata extractor (`invoice-extract.js`) and the
companion slug script (`holded-invoice-slug.js`).

The program is embedded shallowly: a JavaScript string is modelled as a
`List Char` of Unicode scalar values, and each function of the source
(`slugifyVendor`, `findDate`, `findVendor`, the output record assembly) is
translated into an executable Lean definition.  The regular expressions of the
source are small and concrete, so each one is translated into an explicit
matcher with the same backtracking order (ordered alternatives, greedy
optional dots, ASCII word boundaries `\b` over `[A-Za-z0-9_]`).

Modelling conventions:
* `String.prototype.toLowerCase` is modelled character-wise on Basic Latin and
  Latin-1 (the character ranges the program's regexes and tables interact
  with); other code points are left unchanged.
* `String.prototype.trim` and the regex class `\s` use the ECMAScript
  whitespace set.
* String length is the number of scalar values (identical to JavaScript's
  UTF-16 length on the Basic Multilingual Plane).
-/

namespace Invoice

/-- A JavaScript string, modelled as its list of Unicode scalar values. -/
abbrev Str := List Char

/-! ## Character classes -/

/-- ASCII digit `0`-`9`, the regex class `\d`. -/
def isDigit (c : Char) : Bool := 48 ≤ c.toNat && c.toNat ≤ 57

/-- ASCII digit `1`-`9`, the regex class `[1-9]`. -/
def isPosDigit (c : Char) : Bool := 49 ≤ c.toNat && c.toNat ≤ 57

/-- Lowercase ASCII letter or digit, the regex class `[a-z0-9]`. -/
def isAlnumLower (c : Char) : Bool :=
  (97 ≤ c.toNat && c.toNat ≤ 122) || (48 ≤ c.toNat && c.toNat ≤ 57)

/-- The ECMAScript regex word class `\w`, i.e. `[A-Za-z0-9_]`, which governs
the `\b` boundary assertions of every regex in the source. -/
def isWordChar (c : Char) : Bool :=
  (97 ≤ c.toNat && c.toNat ≤ 122) || (65 ≤ c.toNat && c.toNat ≤ 90) ||
  (48 ≤ c.toNat && c.toNat ≤ 57) || c.toNat = 95

/-- The ECMAScript whitespace set used by `String.prototype.trim` and by the
regex class `\s`: tab, LF, VT, FF, CR, space, NBSP, Ogham space mark, the
Unicode space separators U+2000-200A, LS, PS, NNBSP, MMSP, ideographic space
and the BOM. -/
def isJsSpace (c : Char) : Bool :=
  c.toNat = 9 || c.toNat = 10 || c.toNat = 11 || c.toNat = 12 || c.toNat = 13 ||
  c.toNat = 32 || c.toNat = 160 || c.toNat = 5760 ||
  (8192 ≤ c.toNat && c.toNat ≤ 8202) || c.toNat = 8232 || c.toNat = 8233 ||
  c.toNat = 8239 || c.toNat = 8287 || c.toNat = 12288 || c.toNat = 65279

/-- Character-wise model of `String.prototype.toLowerCase`: ASCII `A`-`Z` and
the Latin-1 uppercase letters `À`-`Þ` (except the multiplication sign) map to
their lowercase forms 32 code points higher; the Kelvin sign maps to `k`.
All other characters are left unchanged. -/
def jsToLower (c : Char) : Char :=
  if 65 ≤ c.toNat ∧ c.toNat ≤ 90 then Char.ofNat (c.toNat + 32)
  else if 192 ≤ c.toNat ∧ c.toNat ≤ 222 ∧ c.toNat ≠ 215 then Char.ofNat (c.toNat + 32)
  else if c.toNat = 8490 then 'k'
  else c

/-- The diacritic folding table of the source (lines 20-25): the lowercase
accented vowels fold to their base vowel and `ñ` folds to `n`.  Applied after
lowercasing, exactly as in the source. -/
def foldChar (c : Char) : Char :=
  if c.toNat = 225 ∨ c.toNat = 224 ∨ c.toNat = 228 ∨ c.toNat = 226 then 'a'
  else if c.toNat = 233 ∨ c.toNat = 232 ∨ c.toNat = 235 ∨ c.toNat = 234 then 'e'
  else if c.toNat = 237 ∨ c.toNat = 236 ∨ c.toNat = 239 ∨ c.toNat = 238 then 'i'
  else if c.toNat = 243 ∨ c.toNat = 242 ∨ c.toNat = 246 ∨ c.toNat = 244 then 'o'
  else if c.toNat = 250 ∨ c.toNat = 249 ∨ c.toNat = 252 ∨ c.toNat = 251 then 'u'
  else if c.toNat = 241 then 'n'
  else c

/-! ## Generic string helpers -/

/-- Drop the trailing characters satisfying `p` (the mirror image of
`List.dropWhile`, defined structurally). -/
def dropTrail (p : Char → Bool) : Str → Str
  | [] => []
  | c :: r =>
    match dropTrail p r with
    | [] => if p c then [] else [c]
    | u => c :: u

/-- `String.prototype.trim`: remove leading and trailing ECMAScript
whitespace. -/
def jsTrim (s : Str) : Str := dropTrail isJsSpace (s.dropWhile isJsSpace)

/-- Try to strip the literal `pat` from the front of `s`, returning the
remainder on success. -/
def dropLit : Str → Str → Option Str
  | [], s => some s
  | _, [] => none
  | a :: as, b :: bs => if a = b then dropLit as bs else none

/-- Does `pat` occur as a contiguous substring of `s`?  Models a regex test
for a literal alternative. -/
def containsSub (s pat : Str) : Bool :=
  match s with
  | [] => (dropLit pat ([] : Str)).isSome
  | _ :: rest => (dropLit pat s).isSome || containsSub rest pat

/-- First non-`none` result of `f` over `l`, in order.  Models ordered regex
alternation: the first alternative whose continuation succeeds wins. -/
def firstSome : List α → (α → Option β) → Option β
  | [], _ => none
  | a :: as, f =>
    match f a with
    | some b => some b
    | none => firstSome as f

/-- Is the character before the current position absent or a non-word
character?  Since every token we match starts with a word character, this is
exactly the leading `\b` test. -/
def prevNonWord : Option Char → Bool
  | none => true
  | some c => !isWordChar c

/-- Is the upcoming character absent or a non-word character? -/
def aheadNonWord : Str → Bool
  | [] => true
  | c :: _ => !isWordChar c

/-- Trailing `\b` after a matched token whose last character is `last`, with
`rest` the remaining input: a boundary holds iff exactly one side is a word
character. -/
def boundaryAfter (last : Char) (rest : Str) : Bool :=
  isWordChar last != (match rest with | c :: _ => isWordChar c | [] => false)

/-! ## The slug pipeline (`slugifyVendor`, lines 17-30; identical in
`holded-invoice-slug.js` lines 11-21) -/

/-- The legal-suffix alternation
`\b(s\.?a\.?|sl|s\.l\.?|srl|ltd|inc|llc|gmbh|bv|oy|ab)\b` of line 26, with
each optional dot expanded.  The list order is the regex backtracking order:
alternatives in source order, and within an alternative the greedy optional
dots (dotted form before dotless form). -/
def suffixForms : List Str :=
  ["s.a.".data, "s.a".data, "sa.".data, "sa".data, "sl".data,
   "s.l.".data, "s.l".data, "srl".data, "ltd".data, "inc".data,
   "llc".data, "gmbh".data, "bv".data, "oy".data, "ab".data]

/-- At the current position, the first suffix form (in backtracking order)
that matches literally and is followed by a `\b`, returning its last
character and the remaining input. -/
def suffixFormMatch (s : Str) : Option (Char × Str) :=
  firstSome suffixForms fun f =>
    match dropLit f s with
    | some rest =>
      if boundaryAfter (f.getLastD 'x') rest then some (f.getLastD 'x', rest) else none
    | none => none

/-- One pass of the global replace of line 26, removing every word-bounded
legal-suffix token.  `prev` is the character before the current position
(`none` at the start of the string); the fuel is at least the length of the
remaining input plus one, and every step consumes at least one character. -/
def stripGo : Nat → Option Char → Str → Str
  | 0, _, s => s
  | _ + 1, _, [] => []
  | fuel + 1, prev, c :: rest =>
    if prevNonWord prev then
      match suffixFormMatch (c :: rest) with
      | some (last, after) => stripGo fuel (some last) after
      | none => c :: stripGo fuel (some c) rest
    else c :: stripGo fuel (some c) rest

/-- `s.replace(/\b(s\.?a\.?|sl|s\.l\.?|srl|ltd|inc|llc|gmbh|bv|oy|ab)\b/g, "")`. -/
def stripSuffixTokens (s : Str) : Str := stripGo (s.length + 1) none s

/-- `s.replace(/[^a-z0-9]+/g, "-")`: every maximal run of characters outside
`[a-z0-9]` becomes a single hyphen.  The flag records whether we are inside
such a run (its hyphen already emitted). -/
def hyphenizeGo (inRun : Bool) : Str → Str
  | [] => []
  | c :: rest =>
    if isAlnumLower c then c :: hyphenizeGo false rest
    else if inRun then hyphenizeGo true rest
    else '-' :: hyphenizeGo true rest

/-- Replace every maximal non-`[a-z0-9]` run with one hyphen. -/
def hyphenize (s : Str) : Str := hyphenizeGo false s

/-- `s.replace(/^-+|-+$/g, "")`: strip all leading and trailing hyphens. -/
def stripEdgeHyphens (s : Str) : Str :=
  dropTrail (fun c => c = '-') (s.dropWhile (fun c => c = '-'))

/-- The final replace of line 27 (hyphen-run collapse): every run of hyphens
becomes a single hyphen. -/
def collapseGo (inRun : Bool) : Str → Str
  | [] => []
  | c :: rest =>
    if c = '-' then
      if inRun then collapseGo true rest else '-' :: collapseGo true rest
    else c :: collapseGo false rest

/-- Collapse every run of hyphens to one hyphen. -/
def collapseHyphens (s : Str) : Str := collapseGo false s

/-- `slugifyVendor` (lines 17-30): trim, lowercase, fold diacritics, strip
legal-suffix tokens, hyphenate, strip edge hyphens, collapse hyphen runs, and
fall back to the literal placeholder `"empresa"` when the result is empty. -/
def slugifyVendor (name : Str) : Str :=
  let s1 := (jsTrim name).map jsToLower
  let s2 := s1.map foldChar
  let s3 := stripSuffixTokens s2
  let s4 := collapseHyphens (stripEdgeHyphens (hyphenize s3))
  if s4 = [] then "empresa".data else s4

/-! ## The date resolver (`findDate`, lines 40-60) -/

/-- The month group `(0?[1-9]|1[0-2])`: every way the group can match a
prefix of `s`, as (captured text, remainder) pairs in regex backtracking
order (`0?` greedy, alternatives in source order). -/
def monthParses (s : Str) : List (Str × Str) :=
  match s with
  | [] => []
  | c :: rest =>
    (if c = '0' then
       match rest with
       | d :: r2 => if isPosDigit d then [(['0', d], r2)] else []
       | [] => []
     else []) ++
    (if isPosDigit c then [([c], rest)] else []) ++
    (if c = '1' then
       match rest with
       | d :: r2 => if 48 ≤ d.toNat ∧ d.toNat ≤ 50 then [([c, d], r2)] else []
       | [] => []
     else [])

/-- The day group `(0?[1-9]|[12]\d|3[01])`: every way the group can match a
prefix of `s`, in regex backtracking order. -/
def dayParses (s : Str) : List (Str × Str) :=
  match s with
  | [] => []
  | c :: rest =>
    (if c = '0' then
       match rest with
       | d :: r2 => if isPosDigit d then [(['0', d], r2)] else []
       | [] => []
     else []) ++
    (if isPosDigit c then [([c], rest)] else []) ++
    (if c = '1' ∨ c = '2' then
       match rest with
       | d :: r2 => if isDigit d then [([c, d], r2)] else []
       | [] => []
     else []) ++
    (if c = '3' then
       match rest with
       | d :: r2 => if d = '0' ∨ d = '1' then [([c, d], r2)] else []
       | [] => []
     else [])

/-- Separator class `[-\/]`. -/
def isSep (c : Char) : Bool := c = '-' || c = '/'

/-- Attempt of the ISO-like regex
`\b(20\d{2})[-\/](0?[1-9]|1[0-2])[-\/](0?[1-9]|[12]\d|3[01])\b` (line 44) at
the current position.  On success returns the year capture, the month
capture, the last matched character and the remaining input. -/
def matchIsoAt (prev : Option Char) (s : Str) : Option (Str × Str × Char × Str) :=
  if !prevNonWord prev then none
  else
    match s with
    | '2' :: '0' :: d1 :: d2 :: sep1 :: rest =>
      if isDigit d1 && isDigit d2 && isSep sep1 then
        firstSome (monthParses rest) fun x =>
          match x.2 with
          | sep2 :: r3 =>
            if isSep sep2 then
              firstSome (dayParses r3) fun y =>
                if aheadNonWord y.2 then
                  some (['2', '0', d1, d2], x.1, y.1.getLastD '0', y.2)
                else none
            else none
          | [] => none
      else none
    | _ => none

/-- Attempt of the day-first regex
`\b(0?[1-9]|[12]\d|3[01])[-\/](0?[1-9]|1[0-2])[-\/](20\d{2})\b` (line 49) at
the current position.  Captures year (group 3) and month (group 2). -/
def matchDayFirstAt (prev : Option Char) (s : Str) : Option (Str × Str × Char × Str) :=
  if !prevNonWord prev then none
  else
    firstSome (dayParses s) fun x =>
      match x.2 with
      | sep1 :: r2 =>
        if isSep sep1 then
          firstSome (monthParses r2) fun y =>
            match y.2 with
            | sep2 :: '2' :: '0' :: d1 :: d2 :: r4 =>
              if isSep sep2 && isDigit d1 && isDigit d2 && aheadNonWord r4 then
                some (['2', '0', d1, d2], y.1, d2, r4)
              else none
            | _ => none
        else none
      | [] => none

/-- `String.prototype.matchAll`: scan the text left to right; at each
position attempt a match; on success record the captures and resume after
the matched text, otherwise advance one character.  `prev` tracks the
character before the current position for the `\b` assertions; the fuel is
at least the remaining length plus one and every step consumes at least one
character. -/
def scanGo (matchAt : Option Char → Str → Option (Str × Str × Char × Str)) :
    Nat → Option Char → Str → List (Str × Str)
  | 0, _, _ => []
  | _ + 1, _, [] => []
  | fuel + 1, prev, c :: rest =>
    match matchAt prev (c :: rest) with
    | some (y, m, lastc, after) => (y, m) :: scanGo matchAt fuel (some lastc) after
    | none => scanGo matchAt fuel (some c) rest

/-- All ISO-like matches of the text, in document order, as
(year capture, month capture) pairs. -/
def scanIso (text : Str) : List (Str × Str) :=
  scanGo matchIsoAt (text.length + 1) none text

/-- All day-first matches of the text, in document order, as
(year capture, month capture) pairs. -/
def scanDayFirst (text : Str) : List (Str × Str) :=
  scanGo matchDayFirstAt (text.length + 1) none text

/-- `String(c.month).padStart(2, "0")`. -/
def padMonth (m : Str) : Str := List.replicate (2 - m.length) '0' ++ m

/-- `findDate` (lines 40-60): concatenate the ISO-like matches and then the
day-first matches, take the first candidate, and zero-pad its month; `none`
when neither scan matched. -/
def findDate (text : Str) : Option (Str × Str) :=
  match scanIso text ++ scanDayFirst text with
  | [] => none
  | (y, m) :: _ => some (y, padMonth m)

/-! ## The vendor resolver (`findVendor`, lines 62-120) -/

/-- `text.split(/\r?\n/)`: split on LF or CRLF (a lone CR is ordinary
text). -/
def splitLines : Str → List Str
  | [] => [[]]
  | '\r' :: '\n' :: rest => [] :: splitLines rest
  | '\n' :: rest => [] :: splitLines rest
  | c :: rest =>
    match splitLines rest with
    | [] => [[c]]
    | l :: ls => (c :: l) :: ls

/-- Lines 63-67: split into lines, trim each, drop empties, keep the first
80. -/
def rawLines (text : Str) : List Str :=
  (((splitLines text).map jsTrim).filter (fun l => l ≠ [])).take 80

/-- The stop set of lines 69-85. -/
def stopSet : List Str :=
  ["factura".data, "invoice".data, "receipt".data, "bill".data, "sold to".data,
   "invoice summary".data, "billing overview".data, "overview".data, "total".data,
   "subtotal".data, "iva".data, "vat".data, "impuestos".data, "fecha".data,
   "date".data]

/-- `normalizeCandidate` (lines 87-90): keep the text before the first `•`
and before the first `|`, trim, delete the stray markup characters `#`, `*`,
`·`, and trim again. -/
def normalizeCandidate (line : Str) : Str :=
  jsTrim ((jsTrim ((line.takeWhile (fun c => c ≠ '•')).takeWhile (fun c => c ≠ '|'))).filter
    (fun c => !(c = '#' || c = '*' || c = '·')))

/-- Word-bounded token search: does any of the token forms occur in `s`
preceded and followed by a `\b`?  `s` is already lowercased, modelling the
`/i` flag; every form starts with a letter, so the leading `\b` is the
`prevNonWord` test. -/
def hasWordToken (toks : List Str) : Option Char → Str → Bool
  | _, [] => false
  | prev, c :: rest =>
    (prevNonWord prev &&
      toks.any fun f =>
        match dropLit f (c :: rest) with
        | some after => boundaryAfter (f.getLastD 'x') after
        | none => false) ||
    hasWordToken toks (some c) rest

/-- The tax-id marker regex `\b(cif|nif|vat|tax)\b/i` of line 110. -/
def taxToks : List Str := ["cif".data, "nif".data, "vat".data, "tax".data]

/-- The document-type regex `\b(factura|invoice|recibo|receipt)\b/i` of line
111. -/
def docToks : List Str :=
  ["factura".data, "invoice".data, "recibo".data, "receipt".data]

/-- The legal-entity scoring regex
`\b(gmbh|limited|ltd\.?|inc\.?|llc|s\.?l\.?u\.?|s\.?l\.?|s\.a\.?|bv)\b/i` of
line 95, with every optional dot expanded (order is irrelevant for a pure
existence test). -/
def legalToks : List Str :=
  ["gmbh".data, "limited".data, "ltd.".data, "ltd".data, "inc.".data, "inc".data,
   "llc".data, "s.l.u.".data, "s.l.u".data, "s.lu.".data, "s.lu".data,
   "sl.u.".data, "sl.u".data, "slu.".data, "slu".data,
   "s.l.".data, "s.l".data, "sl.".data, "sl".data,
   "s.a.".data, "s.a".data, "bv".data]

/-- The business-category scoring regex
`\b(online|technologies|systems|software|services)\b/i` of line 96. -/
def categoryToks : List Str :=
  ["online".data, "technologies".data, "systems".data, "software".data,
   "services".data]

/-- The page-number regex `^page\s+\d+\s+of\s+\d+$/i` of line 107, applied to
the lowercased line: literal `page`, whitespace, digits, whitespace, `of`,
whitespace, digits, end.  `\s+`/`\d+` are greedy and the classes are
disjoint from what follows, so maximal munch is exact. -/
def eatMany1 (p : Char → Bool) (s : Str) : Option Str :=
  match s with
  | c :: rest => if p c then some (rest.dropWhile p) else none
  | [] => none

/-- Test of the page-number pattern on the lowercased candidate. -/
def pageNumLine (lc : Str) : Bool :=
  (do
    let r1 ← dropLit "page".data lc
    let r2 ← eatMany1 isJsSpace r1
    let r3 ← eatMany1 isDigit r2
    let r4 ← eatMany1 isJsSpace r3
    let r5 ← dropLit "of".data r4
    let r6 ← eatMany1 isJsSpace r5
    let r7 ← eatMany1 isDigit r6
    if r7 = ([] : Str) then some () else none).isSome

/-- The URL/email marker regex `(www\.|https?:\/\/|@)/i` of line 109: a
case-insensitive substring test. -/
def hasUrlMarker (cleaned : Str) : Bool :=
  let lc := cleaned.map jsToLower
  containsSub lc "www.".data || containsSub lc "http://".data ||
  containsSub lc "https://".data || containsSub lc "@".data

/-- The letter test `[a-záéíóúñ]/i` of line 112: ASCII letters of either
case or one of the accented letters of the class (closed under the `/i`
flag). -/
def isVendorLetter (c : Char) : Bool :=
  (97 ≤ c.toNat && c.toNat ≤ 122) || (65 ≤ c.toNat && c.toNat ≤ 90) ||
  c.toNat = 225 || c.toNat = 233 || c.toNat = 237 || c.toNat = 243 ||
  c.toNat = 250 || c.toNat = 241 ||
  c.toNat = 193 || c.toNat = 201 || c.toNat = 205 || c.toNat = 211 ||
  c.toNat = 218 || c.toNat = 209

/-- `score` (lines 92-99): +3 for a word-bounded legal-entity token, +1 for a
word-bounded business-category token, +1 when the length is within
`[4, 50]`. -/
def scoreLine (line : Str) : Nat :=
  let lc := line.map jsToLower
  (if hasWordToken legalToks none lc then 3 else 0) +
  (if hasWordToken categoryToks none lc then 1 else 0) +
  (if 4 ≤ line.length ∧ line.length ≤ 50 then 1 else 0)

/-- A surviving vendor candidate: the cleaned line and its score. -/
structure Cand where
  value : Str
  score : Nat
deriving DecidableEq, Repr

/-- The filter chain of lines 102-115 applied to one raw line: `none` when
the line is rejected, otherwise the candidate with its score. -/
def candOf (line : Str) : Option Cand :=
  let cleaned := normalizeCandidate line
  if cleaned.length < 3 then none
  else
    let lc := cleaned.map jsToLower
    if stopSet.any (fun t => t = lc) then none
    else if pageNumLine lc then none
    else if cleaned ≠ [] ∧ cleaned.all isDigit then none
    else if hasUrlMarker cleaned then none
    else if hasWordToken taxToks none lc then none
    else if hasWordToken docToks none lc then none
    else if !(cleaned.any isVendorLetter) then none
    else some ⟨cleaned, scoreLine cleaned⟩

/-- The surviving candidates of the text, in document order. -/
def vendorCandidates (text : Str) : List Cand :=
  (rawLines text).filterMap candOf

/-- Stable insertion into a list sorted descending by score: an element is
placed before the first strictly smaller score, i.e. after every
earlier-inserted element of equal score. -/
def insertDesc (c : Cand) : List Cand → List Cand
  | [] => [c]
  | d :: ds => if d.score ≤ c.score then c :: d :: ds else d :: insertDesc c ds

/-- `candidates.sort((a, b) => b.score - a.score)`: the ECMAScript sort is
stable, so the result is the unique stable descending order, realised here
by insertion sort. -/
def sortDesc (l : List Cand) : List Cand := l.foldr insertDesc []

/-- `findVendor` (lines 62-120): empty string when no line survived, else
the value of the top candidate after the stable descending sort. -/
def findVendor (text : Str) : Str :=
  match sortDesc (vendorCandidates text) with
  | [] => []
  | c :: _ => c.value

/-! ## The output record (lines 133-146) -/

/-- The JSON object written to standard output. -/
structure ExtractionResult where
  vendor : Str
  vendorSlug : Str
  year : Str
  month : Str
deriving DecidableEq, Repr

/-- Lines 133-146 as a function of the extracted text and of the PDF
filename's basename without extension (`path.basename(resolved,
path.extname(resolved))`): the vendor, the slug of the vendor or — when the
vendor is the empty string, hence falsy — of the basename, and the date
fields with the empty string for an unresolved date. -/
def runExtract (text base : Str) : ExtractionResult :=
  let vendor := findVendor text
  let date := findDate text
  { vendor := vendor
    vendorSlug := slugifyVendor (if vendor = [] then base else vendor)
    year := match date with | some (y, _) => y | none => []
    month := match date with | some (_, m) => m | none => [] }

/-! ## Predicates used to state the slug invariant -/

/-- The hyphen character class of the edge-strip and collapse regexes. -/
def isHyphen (c : Char) : Bool := c = '-'

/-- Does the last character of the string avoid `p`?  (Vacuously true for the
empty string.) -/
def endsOk (p : Char → Bool) : Str → Bool
  | [] => true
  | [c] => !p c
  | _ :: r => endsOk p r

/-- No two adjacent hyphens anywhere in the string. -/
def noDoubleHyphen : Str → Bool
  | [] => true
  | [_] => true
  | a :: b :: r => !(a = '-' && b = '-') && noDoubleHyphen (b :: r)

/-- The §3 invariant of the specification: a slug is non-empty, uses only
lowercase ASCII letters, digits and hyphens, and has no leading, trailing or
doubled hyphen. -/
def slugNormalized (s : Str) : Bool :=
  !s.isEmpty && s.all (fun c => isAlnumLower c || c = '-') &&
  (match s.head? with | some c => !(c = '-') | none => true) &&
  endsOk isHyphen s && noDoubleHyphen s

/-! ## Generic lemmas about the string helpers -/

theorem mem_dropWhile_sub {p : Char → Bool} {c : Char} :
    ∀ {s : Str}, c ∈ s.dropWhile p → c ∈ s := by
  intro s
  induction s with
  | nil => intro h; simp at h
  | cons a r ih =>
    intro h
    rw [List.dropWhile_cons] at h
    by_cases hp : p a = true
    · rw [if_pos hp] at h
      exact List.mem_cons_of_mem _ (ih h)
    · rw [if_neg hp] at h
      exact h

theorem head_dropWhile_false {p : Char → Bool} :
    ∀ {s : Str} {c : Char}, (s.dropWhile p).head? = some c → p c = false := by
  intro s
  induction s with
  | nil => intro c h; simp at h
  | cons a r ih =>
    intro c h
    rw [List.dropWhile_cons] at h
    by_cases hp : p a = true
    · rw [if_pos hp] at h
      exact ih h
    · rw [if_neg hp] at h
      simp only [List.head?_cons, Option.some.injEq] at h
      subst h
      exact Bool.eq_false_iff.mpr hp

theorem dropWhile_eq_self_of_head {p : Char → Bool} {s : Str}
    (h : ∀ c, s.head? = some c → p c = false) : s.dropWhile p = s := by
  cases s with
  | nil => rfl
  | cons a r =>
    rw [List.dropWhile_cons, if_neg]
    simp [h a rfl]

theorem mem_dropTrail_sub {p : Char → Bool} {c : Char} :
    ∀ {s : Str}, c ∈ dropTrail p s → c ∈ s := by
  intro s
  induction s with
  | nil => intro h; simp [dropTrail] at h
  | cons a r ih =>
    intro h
    cases hu : dropTrail p r with
    | nil =>
      rw [dropTrail, hu] at h
      by_cases hp : p a = true
      · rw [if_pos hp] at h; simp at h
      · rw [if_neg hp] at h
        simp only [List.mem_singleton] at h
        simp [h]
    | cons b u =>
      rw [dropTrail, hu] at h
      rcases List.mem_cons.mp h with h | h
      · simp [h]
      · exact List.mem_cons_of_mem _ (ih (hu ▸ h))

theorem endsOk_cons {p : Char → Bool} {a : Char} {r : Str} (h : r ≠ []) :
    endsOk p (a :: r) = endsOk p r := by
  cases r with
  | nil => exact absurd rfl h
  | cons b u => rfl

theorem endsOk_dropTrail (p : Char → Bool) : ∀ s : Str, endsOk p (dropTrail p s) = true := by
  intro s
  induction s with
  | nil => rfl
  | cons a r ih =>
    cases hu : dropTrail p r with
    | nil =>
      rw [dropTrail, hu]
      by_cases hp : p a = true
      · rw [if_pos hp]; rfl
      · rw [if_neg hp]
        simp [endsOk, hp]
    | cons b u =>
      rw [dropTrail, hu]
      rw [endsOk_cons (by simp)]
      rw [← hu]
      exact ih

theorem dropTrail_eq_self {p : Char → Bool} :
    ∀ {s : Str}, endsOk p s = true → dropTrail p s = s := by
  intro s
  induction s with
  | nil => intro _; rfl
  | cons a r ih =>
    intro h
    cases r with
    | nil =>
      simp only [endsOk, Bool.not_eq_true'] at h
      rw [dropTrail]
      simp [dropTrail, h]
    | cons b u =>
      have h' : endsOk p (b :: u) = true := by rw [← endsOk_cons (by simp)]; exact h
      have hr := ih h'
      rw [dropTrail, hr]

theorem head_dropTrail {p : Char → Bool} :
    ∀ {s : Str} {c : Char}, (dropTrail p s).head? = some c → s.head? = some c := by
  intro s c h
  cases s with
  | nil => simp [dropTrail] at h
  | cons a r =>
    cases hu : dropTrail p r with
    | nil =>
      rw [dropTrail, hu] at h
      by_cases hp : p a = true
      · rw [if_pos hp] at h; simp at h
      · rw [if_neg hp] at h
        simpa using h
    | cons b u =>
      rw [dropTrail, hu] at h
      simpa using h

theorem mem_takeWhile_props {p : Char → Bool} {c : Char} :
    ∀ {s : Str}, c ∈ s.takeWhile p → c ∈ s ∧ p c = true := by
  intro s
  induction s with
  | nil => intro h; simp at h
  | cons a r ih =>
    intro h
    rw [List.takeWhile_cons] at h
    by_cases hp : p a = true
    · rw [if_pos hp] at h
      rcases List.mem_cons.mp h with h | h
      · exact ⟨by simp [h], h ▸ hp⟩
      · rcases ih h with ⟨h1, h2⟩
        exact ⟨List.mem_cons_of_mem _ h1, h2⟩
    · rw [if_neg hp] at h
      simp at h

theorem endsOk_of_all {p : Char → Bool} :
    ∀ {s : Str}, s.all (fun c => !p c) = true → endsOk p s = true := by
  intro s
  induction s with
  | nil => intro _; rfl
  | cons a r ih =>
    intro h
    rw [List.all_cons, Bool.and_eq_true] at h
    cases r with
    | nil => simpa [endsOk] using h.1
    | cons b u =>
      rw [endsOk_cons (by simp)]
      exact ih h.2

theorem map_eq_self_of {f : Char → Char} :
    ∀ {l : Str}, (∀ c ∈ l, f c = c) → l.map f = l := by
  intro l
  induction l with
  | nil => intro _; rfl
  | cons a r ih =>
    intro h
    rw [List.map_cons, h a (by simp), ih (fun c hc => h c (List.mem_cons_of_mem _ hc))]

/-! ## Lemmas about trimming -/

theorem head_jsTrim_false {s : Str} {c : Char} (h : (jsTrim s).head? = some c) :
    isJsSpace c = false :=
  head_dropWhile_false (head_dropTrail h)

theorem endsOk_jsTrim (s : Str) : endsOk isJsSpace (jsTrim s) = true :=
  endsOk_dropTrail _ _

theorem jsTrim_idem (s : Str) : jsTrim (jsTrim s) = jsTrim s := by
  unfold jsTrim
  have h1 : (dropTrail isJsSpace (s.dropWhile isJsSpace)).dropWhile isJsSpace
      = dropTrail isJsSpace (s.dropWhile isJsSpace) := by
    apply dropWhile_eq_self_of_head
    intro c hc
    exact head_dropWhile_false (head_dropTrail hc)
  rw [h1, dropTrail_eq_self (endsOk_dropTrail _ _)]

theorem mem_jsTrim_sub {s : Str} {c : Char} (h : c ∈ jsTrim s) : c ∈ s :=
  mem_dropWhile_sub (mem_dropTrail_sub h)

theorem jsTrim_eq_self_of_all {s : Str} (h : s.all (fun c => !isJsSpace c) = true) :
    jsTrim s = s := by
  unfold jsTrim
  have h1 : s.dropWhile isJsSpace = s := by
    apply dropWhile_eq_self_of_head
    intro c hc
    have hm : c ∈ s := by
      cases s with
      | nil => simp at hc
      | cons a r => simp only [List.head?_cons, Option.some.injEq] at hc; simp [← hc]
    have := List.all_eq_true.mp h c hm
    simpa using this
  rw [h1]
  exact dropTrail_eq_self (endsOk_of_all h)

/-! ## Character-class facts for slug output characters -/

theorem slugChar_props {c : Char} (h : (isAlnumLower c || c = '-') = true) :
    isJsSpace c = false ∧ jsToLower c = c ∧ foldChar c = c := by
  have hn : (97 ≤ c.toNat ∧ c.toNat ≤ 122) ∨ (48 ≤ c.toNat ∧ c.toNat ≤ 57) ∨ c.toNat = 45 := by
    simp only [isAlnumLower, Bool.or_eq_true, Bool.and_eq_true, decide_eq_true_eq] at h
    rcases h with (h | h) | h
    · exact Or.inl h
    · exact Or.inr (Or.inl h)
    · subst h; right; right; rfl
  refine ⟨?_, ?_, ?_⟩
  · simp only [isJsSpace, Bool.or_eq_false_iff, Bool.and_eq_false_iff,
      decide_eq_false_iff_not]
    omega
  · rw [jsToLower, if_neg (by omega), if_neg (by omega), if_neg (by omega)]
  · rw [foldChar, if_neg (by omega), if_neg (by omega), if_neg (by omega),
      if_neg (by omega), if_neg (by omega), if_neg (by omega)]

/-! ## Lemmas about hyphenation -/

theorem mem_hyphenizeGo : ∀ {b : Bool} {s : Str} {c : Char},
    c ∈ hyphenizeGo b s → (isAlnumLower c || c = '-') = true := by
  intro b s
  induction s generalizing b with
  | nil => intro c h; simp [hyphenizeGo] at h
  | cons a r ih =>
    intro c h
    rw [hyphenizeGo] at h
    by_cases ha : isAlnumLower a = true
    · rw [if_pos ha] at h
      rcases List.mem_cons.mp h with h | h
      · simp [h, ha]
      · exact ih h
    · rw [if_neg ha] at h
      cases b with
      | true => exact ih (by simpa using h)
      | false =>
        rcases List.mem_cons.mp (by simpa using h) with h | h
        · simp [h]
        · exact ih h

theorem head_hyphenizeGo_true : ∀ {s : Str} {c : Char},
    (hyphenizeGo true s).head? = some c → isAlnumLower c = true := by
  intro s
  induction s with
  | nil => intro c h; simp [hyphenizeGo] at h
  | cons a r ih =>
    intro c h
    rw [hyphenizeGo] at h
    by_cases ha : isAlnumLower a = true
    · rw [if_pos ha] at h
      simp only [List.head?_cons, Option.some.injEq] at h
      exact h ▸ ha
    · rw [if_neg ha] at h
      exact ih (by simpa using h)

theorem noDD_cons {a : Char} {u : Str}
    (h1 : ∀ d, u.head? = some d → ¬(a = '-' ∧ d = '-'))
    (h2 : noDoubleHyphen u = true) : noDoubleHyphen (a :: u) = true := by
  cases u with
  | nil => rfl
  | cons b v =>
    rw [noDoubleHyphen, Bool.and_eq_true]
    refine ⟨?_, h2⟩
    have := h1 b rfl
    simp only [Bool.not_eq_true', Bool.and_eq_false_iff, decide_eq_false_iff_not]
    tauto

theorem noDD_hyphenizeGo : ∀ {b : Bool} {s : Str}, noDoubleHyphen (hyphenizeGo b s) = true := by
  intro b s
  induction s generalizing b with
  | nil => rfl
  | cons a r ih =>
    rw [hyphenizeGo]
    by_cases ha : isAlnumLower a = true
    · rw [if_pos ha]
      refine noDD_cons ?_ ih
      intro d _ hcon
      rw [hcon.1] at ha
      simp [isAlnumLower] at ha
    · rw [if_neg ha]
      cases b with
      | true => simpa using ih
      | false =>
        simp only [Bool.false_eq_true, if_false]
        refine noDD_cons ?_ ih
        intro d hd hcon
        have := head_hyphenizeGo_true hd
        rw [hcon.2] at this
        simp [isAlnumLower] at this

/-! ## Lemmas about hyphen collapse -/

theorem head_collapseGo_true : ∀ {s : Str} {c : Char},
    (collapseGo true s).head? = some c → c ≠ '-' := by
  intro s
  induction s with
  | nil => intro c h; simp [collapseGo] at h
  | cons a r ih =>
    intro c h
    rw [collapseGo] at h
    by_cases ha : a = '-'
    · rw [if_pos ha, if_pos rfl] at h
      exact ih h
    · rw [if_neg ha] at h
      simp only [List.head?_cons, Option.some.injEq] at h
      exact h ▸ ha

theorem mem_collapseGo : ∀ {b : Bool} {s : Str} {c : Char},
    c ∈ collapseGo b s → c ∈ s := by
  intro b s
  induction s generalizing b with
  | nil => intro c h; simp [collapseGo] at h
  | cons a r ih =>
    intro c h
    rw [collapseGo] at h
    by_cases ha : a = '-'
    · rw [if_pos ha] at h
      cases b with
      | true =>
        rw [if_pos rfl] at h
        exact List.mem_cons_of_mem _ (ih h)
      | false =>
        simp only [Bool.false_eq_true, if_false] at h
        rcases List.mem_cons.mp h with h | h
        · simp [h, ha]
        · exact List.mem_cons_of_mem _ (ih h)
    · rw [if_neg ha] at h
      rcases List.mem_cons.mp h with h | h
      · simp [h]
      · exact List.mem_cons_of_mem _ (ih h)

theorem noDD_collapseGo : ∀ {b : Bool} {s : Str}, noDoubleHyphen (collapseGo b s) = true := by
  intro b s
  induction s generalizing b with
  | nil => rfl
  | cons a r ih =>
    rw [collapseGo]
    by_cases ha : a = '-'
    · rw [if_pos ha]
      cases b with
      | true => rw [if_pos rfl]; exact ih
      | false =>
        simp only [Bool.false_eq_true, if_false]
        refine noDD_cons ?_ ih
        intro d hd hcon
        exact head_collapseGo_true hd hcon.2
    · rw [if_neg ha]
      refine noDD_cons ?_ ih
      intro d _ hcon
      exact ha hcon.1

theorem head_collapseGo_false : ∀ (s : Str), (collapseGo false s).head? = s.head? := by
  intro s
  cases s with
  | nil => rfl
  | cons a r =>
    rw [collapseGo]
    by_cases ha : a = '-'
    · rw [if_pos ha]
      simp [ha]
    · rw [if_neg ha]
      rfl

theorem collapse_ends : ∀ (s : Str), s ≠ [] → endsOk isHyphen s = true →
    ∀ (b : Bool), collapseGo b s ≠ [] ∧ endsOk isHyphen (collapseGo b s) = true := by
  intro s
  induction s with
  | nil => intro h; exact absurd rfl h
  | cons a r ih =>
    intro _ h b
    cases r with
    | nil =>
      have ha : ¬(a = '-') := by
        simp only [endsOk, isHyphen, Bool.not_eq_true', decide_eq_false_iff_not] at h
        exact h
      cases b with
      | true =>
        rw [collapseGo, if_neg ha]
        exact ⟨by simp, by simp [endsOk, isHyphen, ha]⟩
      | false =>
        rw [collapseGo, if_neg ha]
        exact ⟨by simp, by simp [endsOk, isHyphen, ha]⟩
    | cons b2 u =>
      have h' : endsOk isHyphen (b2 :: u) = true := by
        rw [← endsOk_cons (by simp)]; exact h
      by_cases ha : a = '-'
      · cases b with
        | true =>
          rw [collapseGo, if_pos ha, if_pos rfl]
          exact ih (by simp) h' true
        | false =>
          rw [collapseGo, if_pos ha]
          simp only [Bool.false_eq_true, if_false]
          obtain ⟨hne, he⟩ := ih (by simp) h' true
          refine ⟨by simp, ?_⟩
          rw [endsOk_cons hne]
          exact he
      · rw [collapseGo, if_neg ha]
        obtain ⟨hne, he⟩ := ih (by simp) h' false
        refine ⟨by simp, ?_⟩
        rw [endsOk_cons hne]
        exact he

/-! ## The slug invariant -/

theorem slugCore_normalized (s3 : Str)
    (h : collapseHyphens (stripEdgeHyphens (hyphenize s3)) ≠ []) :
    slugNormalized (collapseHyphens (stripEdgeHyphens (hyphenize s3))) = true := by
  set e := stripEdgeHyphens (hyphenize s3) with he
  have hchars : ∀ c ∈ collapseHyphens e, (isAlnumLower c || c = '-') = true := by
    intro c hc
    have h1 : c ∈ e := mem_collapseGo hc
    have h2 : c ∈ hyphenize s3 := mem_dropWhile_sub (mem_dropTrail_sub h1)
    exact mem_hyphenizeGo h2
  have hhead : ∀ d, (collapseHyphens e).head? = some d → d ≠ '-' := by
    intro d hd
    rw [collapseHyphens, head_collapseGo_false] at hd
    have h1 : ((hyphenize s3).dropWhile isHyphen).head? = some d := head_dropTrail hd
    have h2 := head_dropWhile_false h1
    simpa [isHyphen] using h2
  have he_ne : e ≠ [] := by
    intro hcon
    rw [collapseHyphens, hcon] at h
    exact h rfl
  have hends := collapse_ends e he_ne (endsOk_dropTrail _ _) false
  rw [slugNormalized]
  simp only [Bool.and_eq_true]
  refine ⟨⟨⟨⟨?_, ?_⟩, ?_⟩, ?_⟩, ?_⟩
  · simpa using h
  · exact List.all_eq_true.mpr hchars
  · cases hh : (collapseHyphens e).head? with
    | none => rfl
    | some d => simpa using hhead d hh
  · exact hends.2
  · exact noDD_collapseGo

theorem slug_normalized (x : Str) : slugNormalized (slugifyVendor x) = true := by
  rw [slugifyVendor]
  split
  · decide
  · exact slugCore_normalized _ (by assumption)

/-! ## Identity lemmas: each slug stage fixes an already-normalized slug -/

theorem noDD_uncons {a : Char} {r : Str} (h : noDoubleHyphen (a :: r) = true) :
    noDoubleHyphen r = true ∧ ∀ d, r.head? = some d → ¬(a = '-' ∧ d = '-') := by
  cases r with
  | nil => exact ⟨rfl, by intro d hd; simp at hd⟩
  | cons b v =>
    rw [noDoubleHyphen, Bool.and_eq_true] at h
    refine ⟨h.2, ?_⟩
    intro d hd hcon
    simp only [List.head?_cons, Option.some.injEq] at hd
    have := h.1
    rw [hcon.1, hd, hcon.2] at this
    simp at this

theorem hyphenizeGo_eq_self :
    ∀ {s : Str}, s.all (fun c => isAlnumLower c || c = '-') = true →
    noDoubleHyphen s = true →
    hyphenizeGo false s = s ∧
      ((∀ d, s.head? = some d → d ≠ '-') → hyphenizeGo true s = s) := by
  intro s
  induction s with
  | nil => intro _ _; exact ⟨rfl, fun _ => rfl⟩
  | cons a r ih =>
    intro hall hdd
    rw [List.all_cons, Bool.and_eq_true] at hall
    obtain ⟨hdr, hha⟩ := noDD_uncons hdd
    have ihr := ih hall.2 hdr
    by_cases ha : isAlnumLower a = true
    · constructor
      · rw [hyphenizeGo, if_pos ha, ihr.1]
      · intro _
        rw [hyphenizeGo, if_pos ha, ihr.1]
    · have ha' : a = '-' := by
        have h1 := hall.1
        simp only [Bool.or_eq_true, decide_eq_true_eq] at h1
        rcases h1 with h1 | h1
        · exact absurd h1 ha
        · exact h1
      constructor
      · rw [hyphenizeGo, if_neg ha]
        simp only [Bool.false_eq_true, if_false]
        have hr : hyphenizeGo true r = r := by
          apply ihr.2
          intro d hd hdcon
          exact hha d hd ⟨ha', hdcon⟩
        rw [hr, ha']
      · intro hhead
        exact absurd ha' (hhead a rfl)

theorem collapseGo_eq_self :
    ∀ {s : Str}, noDoubleHyphen s = true →
    collapseGo false s = s ∧
      ((∀ d, s.head? = some d → d ≠ '-') → collapseGo true s = s) := by
  intro s
  induction s with
  | nil => intro _; exact ⟨rfl, fun _ => rfl⟩
  | cons a r ih =>
    intro hdd
    obtain ⟨hdr, hha⟩ := noDD_uncons hdd
    have ihr := ih hdr
    by_cases ha : a = '-'
    · constructor
      · rw [collapseGo, if_pos ha]
        simp only [Bool.false_eq_true, if_false]
        have hr : collapseGo true r = r := by
          apply ihr.2
          intro d hd hdcon
          exact hha d hd ⟨ha, hdcon⟩
        rw [hr, ha]
      · intro hhead
        exact absurd ha (hhead a rfl)
    · constructor
      · rw [collapseGo, if_neg ha, ihr.1]
      · intro _
        rw [collapseGo, if_neg ha, ihr.1]

theorem stripEdgeHyphens_eq_self {s : Str}
    (h1 : ∀ d, s.head? = some d → d ≠ '-') (h2 : endsOk isHyphen s = true) :
    stripEdgeHyphens s = s := by
  rw [stripEdgeHyphens]
  have hd : s.dropWhile (fun c => c = '-') = s := by
    apply dropWhile_eq_self_of_head
    intro c hc
    simpa using h1 c hc
  rw [hd]
  exact dropTrail_eq_self h2

/-- The §3 invariant of every slug, in propositional form, for reuse. -/
theorem slug_facts (x : Str) :
    slugifyVendor x ≠ [] ∧
    (∀ c ∈ slugifyVendor x, (isAlnumLower c || c = '-') = true) ∧
    (∀ d, (slugifyVendor x).head? = some d → d ≠ '-') ∧
    endsOk isHyphen (slugifyVendor x) = true ∧
    noDoubleHyphen (slugifyVendor x) = true := by
  have h := slug_normalized x
  rw [slugNormalized] at h
  simp only [Bool.and_eq_true] at h
  obtain ⟨⟨⟨⟨h1, h2⟩, h3⟩, h4⟩, h5⟩ := h
  refine ⟨by simpa using h1, List.all_eq_true.mp h2, ?_, h4, h5⟩
  intro d hd
  rw [hd] at h3
  simpa using h3

/-! ## Lemmas about the vendor sort and candidate list -/

/-- Modelled from the spec: "Sort candidates descending by score (stable —
original line order is the tie-break, earlier wins)" selects the first
candidate in document order whose score is maximal.  This is the
specification-side description that the source's sort-then-take-head is
compared against. -/
def firstMaxCand : List Cand → Option Cand
  | [] => none
  | c :: cs =>
    match firstMaxCand cs with
    | none => some c
    | some d => if c.score < d.score then some d else some c

theorem head_insertDesc (c : Cand) (l : List Cand) :
    (insertDesc c l).head? = some (match l.head? with
      | none => c
      | some d => if d.score ≤ c.score then c else d) := by
  cases l with
  | nil => rfl
  | cons d ds =>
    rw [insertDesc]
    by_cases h : d.score ≤ c.score
    · rw [if_pos h]; simp [h]
    · rw [if_neg h]; simp [h]

theorem head_sortDesc : ∀ l : List Cand, (sortDesc l).head? = firstMaxCand l := by
  intro l
  induction l with
  | nil => rfl
  | cons c cs ih =>
    show (insertDesc c (sortDesc cs)).head? = _
    rw [head_insertDesc, ih, firstMaxCand]
    cases hm : firstMaxCand cs with
    | none => rfl
    | some d =>
      dsimp only
      by_cases hd : c.score < d.score
      · rw [if_pos hd, if_neg (by omega)]
      · rw [if_neg hd, if_pos (by omega)]

theorem mem_insertDesc {x c : Cand} :
    ∀ {l : List Cand}, x ∈ insertDesc c l → x = c ∨ x ∈ l := by
  intro l
  induction l with
  | nil => intro h; simpa [insertDesc] using h
  | cons d ds ih =>
    intro h
    rw [insertDesc] at h
    by_cases hs : d.score ≤ c.score
    · rw [if_pos hs] at h
      rcases List.mem_cons.mp h with h | h
      · exact Or.inl h
      · exact Or.inr h
    · rw [if_neg hs] at h
      rcases List.mem_cons.mp h with h | h
      · exact Or.inr (by simp [h])
      · rcases ih h with h | h
        · exact Or.inl h
        · exact Or.inr (List.mem_cons_of_mem _ h)

theorem mem_sortDesc {x : Cand} : ∀ {l : List Cand}, x ∈ sortDesc l → x ∈ l := by
  intro l
  induction l with
  | nil => intro h; simp [sortDesc] at h
  | cons c cs ih =>
    intro h
    rcases mem_insertDesc (l := sortDesc cs) h with h | h
    · simp [h]
    · exact List.mem_cons_of_mem _ (ih h)

theorem findVendor_cases (text : Str) :
    findVendor text = [] ∨
      ∃ c, c ∈ vendorCandidates text ∧ findVendor text = c.value := by
  rw [findVendor]
  cases hs : sortDesc (vendorCandidates text) with
  | nil => exact Or.inl rfl
  | cons c rest =>
    right
    refine ⟨c, ?_, rfl⟩
    have hc : c ∈ sortDesc (vendorCandidates text) := by rw [hs]; simp
    exact mem_sortDesc hc

theorem candOf_props {line : Str} {c : Cand} (h : candOf line = some c) :
    c.value = normalizeCandidate line ∧ 3 ≤ c.value.length ∧
    c.score = scoreLine c.value ∧
    pageNumLine (c.value.map jsToLower) = false ∧
    c.value.all isDigit = false ∧
    hasUrlMarker c.value = false ∧
    c.value.any isVendorLetter = true := by
  rw [candOf] at h
  by_cases h1 : (normalizeCandidate line).length < 3
  · rw [if_pos h1] at h; exact absurd h (by simp)
  rw [if_neg h1] at h
  by_cases h2 : stopSet.any (fun t => t = (normalizeCandidate line).map jsToLower) = true
  · rw [if_pos h2] at h; exact absurd h (by simp)
  rw [if_neg h2] at h
  by_cases h3 : pageNumLine ((normalizeCandidate line).map jsToLower) = true
  · rw [if_pos h3] at h; exact absurd h (by simp)
  rw [if_neg h3] at h
  by_cases h4 : normalizeCandidate line ≠ [] ∧ (normalizeCandidate line).all isDigit = true
  · rw [if_pos h4] at h; exact absurd h (by simp)
  rw [if_neg h4] at h
  by_cases h5 : hasUrlMarker (normalizeCandidate line) = true
  · rw [if_pos h5] at h; exact absurd h (by simp)
  rw [if_neg h5] at h
  by_cases h6 : hasWordToken taxToks none ((normalizeCandidate line).map jsToLower) = true
  · rw [if_pos h6] at h; exact absurd h (by simp)
  rw [if_neg h6] at h
  by_cases h7 : hasWordToken docToks none ((normalizeCandidate line).map jsToLower) = true
  · rw [if_pos h7] at h; exact absurd h (by simp)
  rw [if_neg h7] at h
  by_cases h8 : (!((normalizeCandidate line).any isVendorLetter)) = true
  · rw [if_pos h8] at h; exact absurd h (by simp)
  rw [if_neg h8] at h
  have hc : c = ⟨normalizeCandidate line, scoreLine (normalizeCandidate line)⟩ := by
    injection h with h'
    exact h'.symm
  subst hc
  dsimp only
  refine ⟨rfl, by omega, rfl, by simpa using h3, ?_, by simpa using h5, by simpa using h8⟩
  by_cases hnil : normalizeCandidate line = []
  · rw [hnil] at h1; simp at h1
  · rcases Decidable.not_and_iff_or_not.mp h4 with hcon | hall
    · exact absurd hnil (by simpa using hcon)
    · simpa using hall

theorem normalizeCandidate_chars {line : Str} {c : Char}
    (h : c ∈ normalizeCandidate line) :
    c ≠ '•' ∧ c ≠ '|' ∧ c ≠ '#' ∧ c ≠ '*' ∧ c ≠ '·' := by
  rw [normalizeCandidate] at h
  have h1 := mem_jsTrim_sub h
  rw [List.mem_filter] at h1
  obtain ⟨h2, h3⟩ := h1
  have h4 := mem_jsTrim_sub h2
  obtain ⟨h5, h6⟩ := mem_takeWhile_props h4
  obtain ⟨_, h8⟩ := mem_takeWhile_props h5
  simp only [Bool.not_eq_true', Bool.or_eq_false_iff, decide_eq_false_iff_not,
    Bool.not_eq_eq_eq_not, Bool.not_true, decide_eq_true_eq] at h3 h6 h8
  exact ⟨h8, h6, h3.1.1, h3.1.2, h3.2⟩

theorem jsTrim_normalizeCandidate (line : Str) :
    jsTrim (normalizeCandidate line) = normalizeCandidate line := by
  rw [normalizeCandidate]
  exact jsTrim_idem _

/-! ## Fixtures -/

/-- The four-line end-to-end fixture of §8 of the specification. -/
def sampleInvoiceText : Str :=
  "Acme Technologies GmbH\nInvoice #1029\nDate: 2024-03-07\nTotal: 540.00".data

/-- The §8 fixture whose only date is the day-first `07/03/2024` and whose
only candidate line carries a URL marker. -/
def urlOnlyText : Str := "www.acme.com\n07/03/2024".data

/-! ## The claims -/

set_option maxHeartbeats 2000000 in
/-- Claim C1, counterexample: on the very scenario the claim quantifies over
(the only date-shaped substring is the day-first `07/03/2024`, the only
candidate line is `www.acme.com`) with the PDF basename `invoice`, the code
emits `vendor = ""`, `year = "2024"`, `month = "03"`, but `vendorSlug` is the
slug of the basename, not the literal fallback placeholder `"empresa"`. -/
theorem claimC1_counterexample :
    findVendor urlOnlyText = [] ∧
    (runExtract urlOnlyText "invoice".data).year = "2024".data ∧
    (runExtract urlOnlyText "invoice".data).month = "03".data ∧
    (runExtract urlOnlyText "invoice".data).vendorSlug ≠ "empresa".data := by
  decide

/-- Claim C1, amended: when `findVendor` returns the empty string, the
emitted `vendorSlug` is `slugifyVendor` applied to the PDF filename's
basename without extension (line 137), which need not be the literal
fallback placeholder. -/
theorem claimC1_amended (text base : Str) (h : findVendor text = []) :
    (runExtract text base).vendor = [] ∧
    (runExtract text base).vendorSlug = slugifyVendor base := by
  dsimp only [runExtract]
  rw [h, if_pos rfl]
  exact ⟨rfl, rfl⟩

/-- Witness for claim C1: the amended statement at the §8 fixture with the
concrete basename `---`. -/
theorem claimC1_witness :
    findVendor urlOnlyText = [] ∧
    ((runExtract urlOnlyText "---".data).vendor = [] ∧
     (runExtract urlOnlyText "---".data).vendorSlug = slugifyVendor "---".data) :=
  ⟨by decide, claimC1_amended urlOnlyText "---".data (by decide)⟩

/-- Claim C2: whenever the ISO-like scan has at least one match, `findDate`
returns the year and zero-padded month of the first ISO-like match in
document order; every day-first match is outranked regardless of position,
because the candidate list is the ISO-like matches followed by the day-first
matches. -/
theorem claimC2_iso_outranks (text : Str) (y m : Str) (rest : List (Str × Str))
    (h : scanIso text = (y, m) :: rest) :
    findDate text = some (y, padMonth m) := by
  rw [findDate, h, List.cons_append]

/-- Witness for claim C2: the spec's own example, a text containing the
day-first `15/03/2024` before the ISO-like `2024-01-10`, resolves to
year 2024, month 01. -/
theorem claimC2_witness :
    scanIso "15/03/2024 and 2024-01-10".data = [("2024".data, "01".data)] ∧
    findDate "15/03/2024 and 2024-01-10".data = some ("2024".data, "01".data) :=
  ⟨by decide,
   claimC2_iso_outranks "15/03/2024 and 2024-01-10".data "2024".data "01".data []
     (by decide)⟩

/-- Claim C3, counterexample: `slugify` is not idempotent.  For the input
`"_sl"` the underscore is a regex word character, so `sl` is not
word-bounded on the first pass and survives; hyphenation then turns the
underscore into a hyphen, and a second pass strips the now word-bounded
`sl`, leaving the empty string and hence the fallback placeholder. -/
theorem claimC3_counterexample :
    slugifyVendor (slugifyVendor "_sl".data) ≠ slugifyVendor "_sl".data := by
  decide

/-- Claim C3, amended: `slugify` is idempotent on every input whose slug the
legal-suffix strip leaves unchanged, i.e. unless hyphenation exposes a fresh
word-bounded legal-suffix token (as in the counterexample `"_sl"`), a second
application returns the slug unchanged. -/
theorem claimC3_amended (x : Str)
    (h : stripSuffixTokens (slugifyVendor x) = slugifyVendor x) :
    slugifyVendor (slugifyVendor x) = slugifyVendor x := by
  obtain ⟨hne, hchars, hhead, hends, hnodd⟩ := slug_facts x
  have t1 : jsTrim (slugifyVendor x) = slugifyVendor x := by
    apply jsTrim_eq_self_of_all
    rw [List.all_eq_true]
    intro c hc
    have := (slugChar_props (hchars c hc)).1
    simp [this]
  have t2 : (slugifyVendor x).map jsToLower = slugifyVendor x :=
    map_eq_self_of fun c hc => (slugChar_props (hchars c hc)).2.1
  have t3 : (slugifyVendor x).map foldChar = slugifyVendor x :=
    map_eq_self_of fun c hc => (slugChar_props (hchars c hc)).2.2
  have t4 : hyphenize (slugifyVendor x) = slugifyVendor x :=
    (hyphenizeGo_eq_self (List.all_eq_true.mpr hchars) hnodd).1
  have t5 : stripEdgeHyphens (slugifyVendor x) = slugifyVendor x :=
    stripEdgeHyphens_eq_self hhead hends
  have t6 : collapseHyphens (slugifyVendor x) = slugifyVendor x :=
    (collapseGo_eq_self hnodd).1
  show (if collapseHyphens (stripEdgeHyphens (hyphenize (stripSuffixTokens
        (((jsTrim (slugifyVendor x)).map jsToLower).map foldChar)))) = []
      then "empresa".data
      else collapseHyphens (stripEdgeHyphens (hyphenize (stripSuffixTokens
        (((jsTrim (slugifyVendor x)).map jsToLower).map foldChar)))))
    = slugifyVendor x
  rw [t1, t2, t3, h, t4, t5, t6, if_neg hne]

/-- Witness for claim C3: the §8 vendor name slugs to
`acme-technologies`, which the legal-suffix strip fixes, so the amended
idempotence applies. -/
theorem claimC3_witness :
    stripSuffixTokens (slugifyVendor "Acme Technologies GmbH".data) =
      slugifyVendor "Acme Technologies GmbH".data ∧
    slugifyVendor (slugifyVendor "Acme Technologies GmbH".data) =
      slugifyVendor "Acme Technologies GmbH".data :=
  ⟨by decide, claimC3_amended _ (by decide)⟩

/-- Claim C4: `slugify` is total (it is a Lean function) and for every input
— including the empty string and pure punctuation — returns a non-empty
string of lowercase ASCII letters, digits and single hyphens with no
leading, trailing or doubled hyphen; consequently the emitted `vendorSlug`
field always satisfies this invariant. -/
theorem claimC4_slug_invariant :
    (∀ x : Str, slugNormalized (slugifyVendor x) = true) ∧
    (∀ text base : Str, slugNormalized ((runExtract text base).vendorSlug) = true) := by
  refine ⟨slug_normalized, ?_⟩
  intro text base
  dsimp only [runExtract]
  exact slug_normalized _

set_option maxHeartbeats 2000000 in
/-- Claim C5: the §8 end-to-end fixture yields vendor
`Acme Technologies GmbH`, slug `acme-technologies` (the `gmbh` suffix
stripped), year `2024` and month `03`, for any PDF basename. -/
theorem claimC5_end_to_end (base : Str) :
    runExtract sampleInvoiceText base =
      ⟨"Acme Technologies GmbH".data, "acme-technologies".data,
       "2024".data, "03".data⟩ := by
  have hv : findVendor sampleInvoiceText = "Acme Technologies GmbH".data := by decide
  have hd : findDate sampleInvoiceText = some ("2024".data, "03".data) := by decide
  dsimp only [runExtract]
  rw [hv, hd, if_neg (by decide : ¬("Acme Technologies GmbH".data = ([] : Str)))]
  decide

/-- Claim C6: the candidate sort is stable with score as the only key — the
returned vendor is the value of the first candidate in document order whose
score is maximal (so among equally-scored top candidates the earlier line
wins). -/
theorem claimC6_stable_tiebreak (text : Str) :
    findVendor text = (match firstMaxCand (vendorCandidates text) with
      | some c => c.value
      | none => []) := by
  rw [findVendor]
  have h := head_sortDesc (vendorCandidates text)
  cases hs : sortDesc (vendorCandidates text) with
  | nil =>
    rw [hs] at h
    simp only [List.head?_nil] at h
    rw [← h]
  | cons c rest =>
    rw [hs] at h
    simp only [List.head?_cons] at h
    rw [← h]

/-- Claim C7: a non-empty `findVendor` result never satisfies the
page-number pattern, is never purely numeric and never contains a URL/email
marker (those lines are filtered out before scoring), and when no line
survives the filters the result is the empty string rather than an
exception. -/
theorem claimC7_rejects (text : Str) :
    (vendorCandidates text = [] → findVendor text = []) ∧
    (findVendor text = [] ∨
      (pageNumLine ((findVendor text).map jsToLower) = false ∧
       (findVendor text).all isDigit = false ∧
       hasUrlMarker (findVendor text) = false)) := by
  constructor
  · intro h
    rw [findVendor, h]
    rfl
  · rcases findVendor_cases text with h | ⟨c, hc, hv⟩
    · exact Or.inl h
    · right
      obtain ⟨line, _, hcand⟩ := List.mem_filterMap.mp hc
      obtain ⟨_, _, _, hp, hd, hu, _⟩ := candOf_props hcand
      rw [hv]
      exact ⟨hp, hd, hu⟩

/-- Witness for claim C7: a text whose lines are a page number, a pure
number, a URL and an email yields the empty string. -/
theorem claimC7_witness :
    findVendor "Page 2 of 5\n123\nwww.a.com\nfoo@bar.com".data = [] :=
  (claimC7_rejects _).1 (by decide)

/-- Claim C8: `findDate` returns `none` exactly when neither the ISO-like
scan nor the day-first scan has a match (and being a Lean function it never
throws); in that case the emitted `year` and `month` fields are both the
empty string. -/
theorem claimC8_unresolved (text base : Str) :
    (findDate text = none ↔ scanIso text = [] ∧ scanDayFirst text = []) ∧
    (findDate text = none →
      (runExtract text base).year = [] ∧ (runExtract text base).month = []) := by
  constructor
  · rw [findDate]
    cases h1 : scanIso text with
    | nil =>
      cases h2 : scanDayFirst text with
      | nil => simp
      | cons a r =>
        obtain ⟨y, m⟩ := a
        simp
    | cons a r =>
      obtain ⟨y, m⟩ := a
      simp
  · intro h
    dsimp only [runExtract]
    rw [h]
    exact ⟨rfl, rfl⟩

/-- Witness for claim C8: a dateless text leaves both fields empty. -/
theorem claimC8_witness :
    (runExtract "Guia sin fecha".data "x".data).year = [] ∧
    (runExtract "Guia sin fecha".data "x".data).month = [] :=
  (claimC8_unresolved _ _).2 (by decide)

/-- Claim C9: no cross-field calendar validation is performed: the text
`31/02/2024` names no real date, yet `findDate` accepts the day `31`
against the syntactic range 1-31 independently of the month and returns
year 2024, month 02. -/
theorem claimC9_no_calendar_validation :
    findDate "31/02/2024".data = some ("2024".data, "02".data) := by
  decide

/-- Claim C10: a non-empty `findVendor` result is the cleaned primary chunk
of one of the first 80 non-empty lines: it is trim-fixed, at least 3
characters long, contains a (possibly accented) Latin letter, and contains
none of `•`, `|`, `#`, `*`, `·`; lines after the 80th cannot supply the
vendor because `rawLines` truncates to 80. -/
theorem claimC10_result_shape (text : Str) (h : findVendor text ≠ []) :
    ∃ line ∈ rawLines text,
      findVendor text = normalizeCandidate line ∧
      3 ≤ (findVendor text).length ∧
      (findVendor text).any isVendorLetter = true ∧
      (∀ c ∈ findVendor text, c ≠ '•' ∧ c ≠ '|' ∧ c ≠ '#' ∧ c ≠ '*' ∧ c ≠ '·') ∧
      jsTrim (findVendor text) = findVendor text := by
  rcases findVendor_cases text with hcon | ⟨c, hc, hv⟩
  · exact absurd hcon h
  · obtain ⟨line, hline, hcand⟩ := List.mem_filterMap.mp hc
    obtain ⟨he, hlen, _, _, _, _, hlet⟩ := candOf_props hcand
    refine ⟨line, hline, ?_, ?_, ?_, ?_, ?_⟩
    · rw [hv, he]
    · rw [hv]; exact hlen
    · rw [hv]; exact hlet
    · intro ch hch
      rw [hv, he] at hch
      exact normalizeCandidate_chars hch
    · rw [hv, he]
      exact jsTrim_normalizeCandidate line

/-- Witness for claim C10 at the §8 fixture. -/
theorem claimC10_witness :
    findVendor sampleInvoiceText ≠ [] ∧
    ∃ line ∈ rawLines sampleInvoiceText,
      findVendor sampleInvoiceText = normalizeCandidate line ∧
      3 ≤ (findVendor sampleInvoiceText).length ∧
      (findVendor sampleInvoiceText).any isVendorLetter = true ∧
      (∀ c ∈ findVendor sampleInvoiceText,
        c ≠ '•' ∧ c ≠ '|' ∧ c ≠ '#' ∧ c ≠ '*' ∧ c ≠ '·') ∧
      jsTrim (findVendor sampleInvoiceText) = findVendor sampleInvoiceText :=
  ⟨by decide, claimC10_result_shape _ (by decide)⟩

end Invoice
